import Mathlib

/-!
Verification of the GPR repository (Gaussian process regression) against its
specification.  The C++ sources are shallowly embedded: Eigen dynamic matrices
over `double` become Mathlib matrices over `ℝ`, thrown `std::string` errors
become an explicit error type returned through `Except`, and the numeric
eigensolver (an external Eigen component) is modelled by its mathematical
contract, passed as hypotheses.
-/

namespace GPR

noncomputable section

/-- Errors that evaluation of a likelihood can produce.  The first two model
the `std::string` exceptions thrown in `Likelihood.h` (the base-class
not-implemented message and the degenerate-determinant message of
`GaussianLogLikelihood`).  `eigenSizeAssert` models Eigen's runtime size
contract: `VectorType df = -0.5 * (Y.adjoint() * C * Y)` assigns a
`D×D` matrix expression to a column vector, which Eigen only admits when
`D = 1` (otherwise the resize of a fixed-one-column matrix fails its
assertion). -/
inductive LikError : Type
  | notImplemented
  | degenerateMatrix
  | eigenSizeAssert
  deriving DecidableEq

/-- The data a `GaussianProcess` hands to a likelihood through the
friend accessors `GetLabelMatrix` / `GetCoreMatrix` of `Likelihood.h`:
the `N×D` label matrix `Y`, the core matrix `C = inv(K + sigma*I)`, and
the determinant of `K + sigma*I` (the return value of
`ComputeCoreMatrix`). -/
structure GPCore (N D : ℕ) : Type where
  Y : Matrix (Fin N) (Fin D) ℝ
  C : Matrix (Fin N) (Fin N) ℝ
  determinant : ℝ

/-- `Likelihood::operator()` of the abstract base class
(`Likelihood.h`, lines 44-46): it unconditionally throws
`"Likelihood: operator() is not implemented."`. -/
def likelihoodBase {N D : ℕ} (_gp : GPCore N D) : Except LikError (Fin D → ℝ) :=
  Except.error LikError.notImplemented

/-- `GaussianLogLikelihood::operator()` (`Likelihood.h`, lines 79-100).
The data-fit line `VectorType df = -0.5 * (Y.adjoint() * C * Y)` is only
well-formed for a single output column (`D = 1`, modelled by the outer
guard; the branch index `i` is then the unique entry of the `1×1`
product, not a diagonal extraction).  After that the code checks
`determinant <= 0` and throws, otherwise it returns
`df.array() + (cp + ct)` with `cp = -0.5*log(determinant)` and
`ct = -C.rows()/2 * log(2*pi)`.  `C.rows()` is a signed integer, so
`-C.rows()/2` is C++ integer division truncating toward zero; for
`N ≥ 0` this equals the negated floor `-(N / 2 : ℕ)`. -/
def gaussianLogLikelihood {N D : ℕ} (gp : GPCore N D) : Except LikError (Fin D → ℝ) :=
  if D = 1 then
    if gp.determinant ≤ 0 then
      Except.error LikError.degenerateMatrix
    else
      Except.ok (fun i =>
        -0.5 * (gp.Y.transpose * gp.C * gp.Y) i i
          + (-0.5 * Real.log gp.determinant
              + -(((N / 2 : ℕ) : ℝ)) * Real.log (2 * Real.pi)))
  else
    Except.error LikError.eigenSizeAssert

/-- Concrete single-sample, single-output engine data used to evaluate the
likelihood at an odd sample count: `N = 1`, `Y = [[2]]`, `C = [[1]]`,
`det(K + sigma*I) = 1`. -/
def gpC1 : GPCore 1 1 :=
  { Y := fun _ _ => 2, C := fun _ _ => 1, determinant := 1 }

/-- Concrete two-output engine data with zero determinant: `N = 1`,
`D = 2`, `Y = 0`, `C = 0`, `det = 0`. -/
def gpC2 : GPCore 1 2 :=
  { Y := fun _ _ => 0, C := fun _ _ => 0, determinant := 0 }

/-- Modelled from the spec: `GaussianProcess.h` is not under `src/`.  Per
sections 3, 4.2 and 6 of the spec, an initialized engine holds the kernel
(an external collaborator evaluated through its interface), the ordered
training inputs, the label column (the posterior-process tests use a
single output dimension), the observation noise `sigma`, and the cached
core matrix `C`. -/
structure GPEngine (X : Type) (N : ℕ) : Type where
  kern : X → X → ℝ
  inputs : Fin N → X
  labels : Fin N → ℝ
  sigma : ℝ
  C : Matrix (Fin N) (Fin N) ℝ

/-- The Gram matrix `K[s][u] = Kernel(input_s, input_u)` of section 3. -/
def gram {X : Type} {N : ℕ} (gp : GPEngine X N) : Matrix (Fin N) (Fin N) ℝ :=
  fun s u => gp.kern (gp.inputs s) (gp.inputs u)

/-- Modelled from the spec (section 4.2): `k(x)` is the vector of
`Kernel(x, input_i)` over all training inputs `i`. -/
def kvec {X : Type} {N : ℕ} (gp : GPEngine X N) (x : X) : Fin N → ℝ :=
  fun s => gp.kern x (gp.inputs s)

/-- Modelled from the spec (section 4.2):
`Covariance(x1, x2) = Kernel(x1, x2) - k(x1)ᵀ · C · k(x2)`. -/
def covariance {X : Type} {N : ℕ} (gp : GPEngine X N) (x1 x2 : X) : ℝ :=
  gp.kern x1 x2 - Matrix.dotProduct (kvec gp x1) (gp.C.mulVec (kvec gp x2))

/-- Modelled from the spec (section 4.2): `Predict(x) = Yᵀ · C · k(x)`,
here for one output dimension. -/
def predict {X : Type} {N : ℕ} (gp : GPEngine X N) (x : X) : ℝ :=
  Matrix.dotProduct gp.labels (gp.C.mulVec (kvec gp x))

/-- Modelled from the spec (section 4.2):
`CredibleInterval(x) = 2 * sqrt(Covariance(x, x))`. -/
def credibleInterval {X : Type} {N : ℕ} (gp : GPEngine X N) (x : X) : ℝ :=
  2 * Real.sqrt (covariance gp x x)

/-- Modelled from the spec (sections 3 and 4.1): `Initialize()` computes
the core matrix as the inverse of `K + sigma*I`, stated here as the
defining right-inverse equation. -/
def Initialized {X : Type} {N : ℕ} (gp : GPEngine X N) : Prop :=
  (gram gp + gp.sigma • (1 : Matrix (Fin N) (Fin N) ℝ)) * gp.C = 1

/-- The posterior covariance matrix that `Test2` of
`PosteriorProcessTest.cpp` fills over the evaluation grid `g`:
cell `(i, j)` holds `Covariance(g i, g j)`. -/
def covMatrix {X : Type} {N M : ℕ} (gp : GPEngine X N) (g : Fin M → X) :
    Matrix (Fin M) (Fin M) ℝ :=
  fun i j => covariance gp (g i) (g j)

/-- The posterior mean vector over the evaluation grid `g`
(`mean[i] = gp->Predict(x_i)` in `Test2`). -/
def postMean {X : Type} {N M : ℕ} (gp : GPEngine X N) (g : Fin M → X) :
    Fin M → ℝ :=
  fun i => predict gp (g i)

/-- The artifacts of `Eigen::SelfAdjointEigenSolver<MatrixType>` used in
`Test2` (line 138): `eigval` models `eigenvalues()` and `eigvec` models
`eigenvectors()` (entry `i` of eigenvector column `c` is `eigvec i c`).
The solver is an external Eigen component, so its guarantees — the
eigen-equation, the increasing order of the returned eigenvalues, and
the orthonormality of the returned columns — enter the theorems as
hypotheses rather than as computed facts. -/
structure EigenSys (M : ℕ) : Type where
  eigval : Fin M → ℝ
  eigvec : Matrix (Fin M) (Fin M) ℝ

/-- Column `c` of the eigenvector matrix. -/
def eigcol {M : ℕ} (es : EigenSys M) (c : Fin M) : Fin M → ℝ :=
  fun i => es.eigvec i c

/-- The set of components whose eigenvalue passes the test of line 139,
`(eigenSolver.eigenvalues().array() - 1e-10) > 0`. -/
def keepSet {M : ℕ} (es : EigenSys M) : Finset (Fin M) :=
  Finset.univ.filter (fun c => (0 : ℝ) < es.eigval c - 1e-10)

/-- `numComponentsToKeep` of line 139: the count of eigenvalues whose
difference with `1e-10` is positive. -/
def numComponentsToKeep {M : ℕ} (es : EigenSys M) : ℕ :=
  (keepSet es).card

/-- The original column index selected for retained column `j`:
`rowwise().reverse()` followed by `topLeftCorner(M, numComponentsToKeep)`
(line 140) picks column `M - 1 - j` of the solver output. -/
def revIdx {M : ℕ} (es : EigenSys M) (j : Fin (numComponentsToKeep es)) : Fin M :=
  Fin.rev (Fin.castLE (by simpa [numComponentsToKeep] using Finset.card_le_univ (keepSet es)) j)

/-- `rot` of line 140: the first `numComponentsToKeep` columns of the
column-reversed eigenvector matrix. -/
def rot {M : ℕ} (es : EigenSys M) : Matrix (Fin M) (Fin (numComponentsToKeep es)) ℝ :=
  fun i j => es.eigvec i (revIdx es j)

/-- `scl` of line 141: the top `numComponentsToKeep` entries of the
reversed eigenvalue vector, square-rooted. -/
def scl {M : ℕ} (es : EigenSys M) : Fin (numComponentsToKeep es) → ℝ :=
  fun j => Real.sqrt (es.eigval (revIdx es j))

/-- `Q = rot * scl.asDiagonal()` of line 143. -/
def Q {M : ℕ} (es : EigenSys M) : Matrix (Fin M) (Fin (numComponentsToKeep es)) ℝ :=
  rot es * Matrix.diagonal (scl es)

/-- The rank-one matrix contributed by eigen-component `c`. -/
def outerCol {M : ℕ} (es : EigenSys M) (c : Fin M) : Matrix (Fin M) (Fin M) ℝ :=
  fun i j => eigcol es c i * eigcol es c j

/-- Squared Frobenius norm of a square matrix. -/
def frobSq {M : ℕ} (A : Matrix (Fin M) (Fin M) ℝ) : ℝ :=
  ∑ i, ∑ j, A i j ^ 2

/-- Eigen's `.norm()` on a matrix: the Frobenius norm (line 144). -/
def frobNorm {M : ℕ} (A : Matrix (Fin M) (Fin M) ℝ) : ℝ :=
  Real.sqrt (frobSq A)

/-- The draw expression of line 151,
`rot * VectorType(z.array() * scl.array()) + mean`, taken with a noise
vector of length `numComponentsToKeep`, the length the coefficient-wise
product with `scl` requires. -/
def sampleDraw {M : ℕ} (es : EigenSys M) (mean : Fin M → ℝ)
    (z : Fin (numComponentsToKeep es) → ℝ) : Fin M → ℝ :=
  fun i => (rot es).mulVec (fun j => z j * scl es j) i + mean i

/-- Line 151 as written: the noise vector comes from
`GetRandomVector(number_of_samples)` and therefore has length `M`.
Eigen only defines the coefficient-wise product `z.array() * scl.array()`
(and the subsequent product with `rot`) when the operand lengths agree,
i.e. when `M = numComponentsToKeep`; otherwise the expression fails
Eigen's size assertion and no draw is produced. -/
def sampleDrawCode {M : ℕ} (es : EigenSys M) (mean : Fin M → ℝ)
    (z : Fin M → ℝ) : Option (Fin M → ℝ) :=
  if h : M = numComponentsToKeep es then
    some (sampleDraw es mean (fun j => z (Fin.cast h.symm j)))
  else
    none

/-- Single-point engine over a one-element input space, used as a
concrete instance: constant kernel `1`, one training sample, zero noise,
core matrix `C = [[1]]` (the inverse of the `1×1` Gram matrix). -/
def gpW : GPEngine Unit 1 :=
  { kern := fun _ _ => 1, inputs := fun _ => (), labels := fun _ => 0,
    sigma := 0, C := 1 }

/-- The one-point evaluation grid for `gpW`. -/
def gW : Fin 1 → Unit :=
  fun _ => ()

/-- Eigendecomposition of the `1×1` zero matrix: eigenvalue `0`,
eigenvector `[1]`. -/
def esW1 : EigenSys 1 :=
  { eigval := fun _ => 0, eigvec := 1 }

/-- A two-component eigensystem with eigenvalues `0` and `1` (identity
eigenvectors), a concrete input for the truncation theorems. -/
def esW2 : EigenSys 2 :=
  { eigval := ![0, 1], eigvec := 1 }

/-- The state mutated by the covariance-fill loop of `Test2`
(lines 116-134): the mean vector and the `M×M` matrix `K`. -/
structure FillState (M : ℕ) : Type where
  mean : Fin M → ℝ
  K : Matrix (Fin M) (Fin M) ℝ

/-- The net effect of outer-loop iteration `i` of the fill
(lines 121-134): it writes `mean[i] = gp->Predict(x_i)` and, for every
`j` from `i` to `M-1`, writes `K(i,j) = Covariance(x_i, x_j)` and
mirrors it to `K(j,i)`.  `pm` and `cov` are the per-index prediction and
covariance values, pure functions of the fixed engine and grid. -/
def fillIter {M : ℕ} (pm : Fin M → ℝ) (cov : Fin M → Fin M → ℝ)
    (i : Fin M) (st : FillState M) : FillState M :=
  { mean := Function.update st.mean i (pm i),
    K := fun a b =>
      if a = i ∧ i ≤ b then cov i b
      else if b = i ∧ i ≤ a then cov i a
      else st.K a b }

/-- Running the outer-loop iterations in the order listed in `o` (the
`#pragma omp parallel for` of line 120 permits any such order). -/
def fillRun {M : ℕ} (pm : Fin M → ℝ) (cov : Fin M → Fin M → ℝ)
    (o : List (Fin M)) (st : FillState M) : FillState M :=
  o.foldl (fun s i => fillIter pm cov i s) st

/-- Concrete per-index predictions for the fill instance. -/
def pmW : Fin 2 → ℝ :=
  fun i => ((i : ℕ) : ℝ)

/-- Concrete per-pair covariance values (deliberately asymmetric in the
two indices, so that the `min/max` structure of the fill is visible). -/
def covW : Fin 2 → Fin 2 → ℝ :=
  fun i j => ((i : ℕ) : ℝ) + ((j : ℕ) : ℝ) * 2

/-- The iteration order `0, 1`. -/
def o1W : List (Fin 2) :=
  [0, 1]

/-- The iteration order `1, 0`. -/
def o2W : List (Fin 2) :=
  [1, 0]

/-- An initial fill state. -/
def stW : FillState 2 :=
  { mean := fun _ => 0, K := fun _ _ => 0 }

end

/-- Claim C9: the base-class `Likelihood::operator()` raises the
not-implemented error for every GP engine argument and never returns a
result vector. -/
theorem C9_base_operator_not_implemented {N D : ℕ} (gp : GPCore N D) :
    likelihoodBase gp = Except.error LikError.notImplemented ∧
    ∀ v : Fin D → ℝ, likelihoodBase gp ≠ Except.ok v := by
  refine ⟨rfl, fun v h => ?_⟩
  simp [likelihoodBase] at h

/-- Claim C1 (code bug): at the failing input `N = 1`, `Y = [[2]]`,
`C = [[1]]`, `det = 1`, the code returns the vector `[-2]`, because the
constant term `-C.rows()/2 * log(2*pi)` is computed with C++ integer
division (`(-1)/2 = 0`); the value demanded by the claim,
`-0.5*(Yᵀ C Y) - 0.5*log(det) - (N/2)*log(2*pi)` with the real number
`N/2 = 1/2`, is different. -/
theorem C1_constant_term_integer_division :
    gaussianLogLikelihood gpC1 = Except.ok (fun _ => (-2 : ℝ)) ∧
    (-2 : ℝ) ≠
      -0.5 * (2 * 1 * 2) - 0.5 * Real.log 1 - (1 / 2 : ℝ) * Real.log (2 * Real.pi) := by
  constructor
  · have h1 : ¬ ((gpC1).determinant ≤ 0) := by norm_num [gpC1]
    simp only [gaussianLogLikelihood, if_pos rfl, if_neg h1, if_true]
    congr 1
    funext i
    simp [gpC1, Matrix.mul_apply, Matrix.transpose_apply, Fin.sum_univ_one]
    norm_num [Real.log_one]
  · intro h
    rw [Real.log_one] at h
    have hlog : Real.log (2 * Real.pi) = 0 := by linarith
    have hpi := Real.pi_gt_three
    rcases Real.log_eq_zero.mp hlog with h0 | h0 | h0 <;> linarith

/-- Claim C2, counterexample: for a two-output engine (`D_out = 2`) with
determinant `0 ≤ 0`, evaluation does not raise the degenerate-matrix
error; the data-fit vector assignment violates Eigen's size contract
first. -/
theorem C2_counterexample :
    gpC2.determinant ≤ 0 ∧
    gaussianLogLikelihood gpC2 ≠ Except.error LikError.degenerateMatrix ∧
    gaussianLogLikelihood gpC2 = Except.error LikError.eigenSizeAssert := by
  refine ⟨le_refl 0, ?_, ?_⟩ <;> simp [gaussianLogLikelihood, gpC2]

/-- Claim C2 as amended: for single-output engines (`D_out = 1`),
`GaussianLogLikelihood::operator()` raises the degenerate-matrix error
if and only if the determinant of `K + sigma*I` is `≤ 0`; in particular
it never raises it when the determinant is positive. -/
theorem C2_degenerate_error_iff {N : ℕ} (gp : GPCore N 1) :
    gaussianLogLikelihood gp = Except.error LikError.degenerateMatrix ↔
      gp.determinant ≤ 0 := by
  unfold gaussianLogLikelihood
  simp only [if_pos rfl]
  by_cases h : gp.determinant ≤ 0
  · simp [h]
  · simp [h]

/-- Claim C3: for every engine and every query point `x`, the difference
`2*sqrt(Covariance(x,x)) - CredibleInterval(x)` is exactly zero: the
credible interval is derived from the same covariance computation. -/
theorem C3_credible_interval_identity {X : Type} {N : ℕ} (gp : GPEngine X N) (x : X) :
    2 * Real.sqrt (covariance gp x x) - credibleInterval gp x = 0 := by
  simp [credibleInterval]

theorem mem_keepSet_iff {M : ℕ} (es : EigenSys M) (c : Fin M) :
    c ∈ keepSet es ↔ (1e-10 : ℝ) < es.eigval c := by
  simp [keepSet, sub_pos]

theorem keepSet_upward {M : ℕ} (es : EigenSys M) (hMono : Monotone es.eigval)
    {c d : Fin M} (hc : c ∈ keepSet es) (hcd : c ≤ d) : d ∈ keepSet es := by
  rw [mem_keepSet_iff] at hc ⊢
  exact lt_of_lt_of_le hc (hMono hcd)

theorem numComponentsToKeep_le {M : ℕ} (es : EigenSys M) :
    numComponentsToKeep es ≤ M := by
  simpa [numComponentsToKeep] using Finset.card_le_univ (keepSet es)

theorem val_revIdx {M : ℕ} (es : EigenSys M) (j : Fin (numComponentsToKeep es)) :
    (revIdx es j).val = M - 1 - j.val := by
  simp [revIdx, Fin.val_rev]
  omega

theorem revIdx_mem_keepSet {M : ℕ} (es : EigenSys M)
    (hMono : Monotone es.eigval) (j : Fin (numComponentsToKeep es)) :
    revIdx es j ∈ keepSet es := by
  by_contra hns
  have hsub : keepSet es ⊆ Finset.Ioi (revIdx es j) := by
    intro s hs
    rcases lt_or_le (revIdx es j) s with h1 | h1
    · exact Finset.mem_Ioi.mpr h1
    · exact absurd (keepSet_upward es hMono hs h1) hns
  have hcard : numComponentsToKeep es ≤ (Finset.Ioi (revIdx es j)).card :=
    Finset.card_le_card hsub
  rw [Fin.card_Ioi] at hcard
  have hval := val_revIdx es j
  have hj : j.val < numComponentsToKeep es := j.isLt
  have hle := numComponentsToKeep_le es
  omega

theorem eigval_revIdx_gt {M : ℕ} (es : EigenSys M)
    (hMono : Monotone es.eigval) (j : Fin (numComponentsToKeep es)) :
    (1e-10 : ℝ) < es.eigval (revIdx es j) :=
  (mem_keepSet_iff es _).mp (revIdx_mem_keepSet es hMono j)

theorem revIdx_injective {M : ℕ} (es : EigenSys M) :
    Function.Injective (revIdx es) := by
  intro a b hab
  simp only [revIdx] at hab
  exact Fin.castLE_injective _ (Fin.rev_injective hab)

theorem image_revIdx_eq_keepSet {M : ℕ} (es : EigenSys M)
    (hMono : Monotone es.eigval) :
    Finset.image (revIdx es) Finset.univ = keepSet es := by
  apply Finset.eq_of_subset_of_card_le
  · intro c hc
    rcases Finset.mem_image.mp hc with ⟨j, _, rfl⟩
    exact revIdx_mem_keepSet es hMono j
  · rw [Finset.card_image_of_injective _ (revIdx_injective es)]
    simp [numComponentsToKeep]

/-- Claim C5: under the increasing eigenvalue order guaranteed by the
solver, the truncation keeps a component exactly when its eigenvalue
exceeds `1e-10` (the retained columns are the image of `revIdx`, and
that image is exactly the kept set), and the retained eigenvalues are
ordered descending. -/
theorem C5_truncation_keeps_exactly_above_threshold {M : ℕ} (es : EigenSys M)
    (hMono : Monotone es.eigval) :
    (∀ c, c ∈ keepSet es ↔ (1e-10 : ℝ) < es.eigval c) ∧
    Finset.image (revIdx es) Finset.univ = keepSet es ∧
    (∀ j k : Fin (numComponentsToKeep es), j ≤ k →
      es.eigval (revIdx es k) ≤ es.eigval (revIdx es j)) := by
  refine ⟨fun c => mem_keepSet_iff es c, image_revIdx_eq_keepSet es hMono, ?_⟩
  intro j k hjk
  apply hMono
  rw [Fin.le_def, val_revIdx, val_revIdx]
  have := Fin.le_def.mp hjk
  have := k.isLt
  have := numComponentsToKeep_le es
  omega

/-- Witness for C5 at the concrete eigensystem `esW2` (eigenvalues `0`
and `1`). -/
theorem C5_witness :
    Monotone esW2.eigval ∧
    ((∀ c, c ∈ keepSet esW2 ↔ (1e-10 : ℝ) < esW2.eigval c) ∧
      Finset.image (revIdx esW2) Finset.univ = keepSet esW2 ∧
      (∀ j k : Fin (numComponentsToKeep esW2), j ≤ k →
        esW2.eigval (revIdx esW2 k) ≤ esW2.eigval (revIdx esW2 j))) := by
  have hMono : Monotone esW2.eigval := by
    intro a b hab
    fin_cases a <;> fin_cases b <;> simp_all [esW2]
  exact ⟨hMono, C5_truncation_keeps_exactly_above_threshold esW2 hMono⟩

theorem gram_mul_C_eq_one {X : Type} {N : ℕ} (gp : GPEngine X N)
    (hinit : Initialized gp) (hsig : gp.sigma = 0) : gram gp * gp.C = 1 := by
  have h := hinit
  rwa [Initialized, hsig, zero_smul, add_zero] at h

theorem covMatrix_row_zero {X : Type} {N M : ℕ} (gp : GPEngine X N)
    (g : Fin M → X) (t : Fin N) (i0 : Fin M)
    (hsym : ∀ a b, gp.kern a b = gp.kern b a)
    (hinit : Initialized gp) (hsig : gp.sigma = 0)
    (hloc : g i0 = gp.inputs t) :
    ∀ j, covMatrix gp g i0 j = 0 := by
  intro j
  have hGC := gram_mul_C_eq_one gp hinit hsig
  have key : Matrix.dotProduct (kvec gp (gp.inputs t)) (gp.C.mulVec (kvec gp (g j)))
      = ((gram gp * gp.C).mulVec (kvec gp (g j))) t := by
    rw [← Matrix.mulVec_mulVec]
    rfl
  rw [covMatrix, covariance, hloc, key, hGC, Matrix.one_mulVec]
  rw [kvec]
  rw [hsym (gp.inputs t) (g j)]
  ring

theorem eigcol_vanishes {M : ℕ} (K : Matrix (Fin M) (Fin M) ℝ) (es : EigenSys M)
    (hEig : ∀ c, K.mulVec (eigcol es c) = es.eigval c • eigcol es c)
    (i0 : Fin M) (hrow : ∀ j, K i0 j = 0) (c : Fin M)
    (hc : es.eigval c ≠ 0) : eigcol es c i0 = 0 := by
  have h0 : (K.mulVec (eigcol es c)) i0 = 0 := by
    simp [Matrix.mulVec, Matrix.dotProduct, hrow]
  rw [hEig c] at h0
  simp only [Pi.smul_apply, smul_eq_mul] at h0
  rcases mul_eq_zero.mp h0 with h | h
  · exact absurd h hc
  · exact h

/-- Claim C4: for a zero-noise initialized engine with symmetric kernel,
at every evaluation-grid index `i0` that coincides exactly with a
training input, every draw of the posterior sampler equals the posterior
mean to within `1e-9` (in fact exactly), for every noise vector `z` and
regardless of how many eigencomponents the truncation retained. -/
theorem C4_draws_match_mean_at_training {X : Type} {N M : ℕ}
    (gp : GPEngine X N) (g : Fin M → X) (t : Fin N) (i0 : Fin M)
    (hsym : ∀ a b, gp.kern a b = gp.kern b a)
    (hinit : Initialized gp) (hsig : gp.sigma = 0)
    (hloc : g i0 = gp.inputs t)
    (es : EigenSys M)
    (hEig : ∀ c, (covMatrix gp g).mulVec (eigcol es c) = es.eigval c • eigcol es c)
    (hMono : Monotone es.eigval)
    (z : Fin (numComponentsToKeep es) → ℝ) :
    |sampleDraw es (postMean gp g) z i0 - postMean gp g i0| < 1e-9 := by
  have hrow := covMatrix_row_zero gp g t i0 hsym hinit hsig hloc
  have hrot : ∀ j : Fin (numComponentsToKeep es), rot es i0 j = 0 := by
    intro j
    have hpos := eigval_revIdx_gt es hMono j
    exact eigcol_vanishes (covMatrix gp g) es hEig i0 hrow (revIdx es j)
      (ne_of_gt (lt_trans (by norm_num) hpos))
  have hzero : sampleDraw es (postMean gp g) z i0 - postMean gp g i0 = 0 := by
    simp [sampleDraw, Matrix.mulVec, Matrix.dotProduct, hrot]
  rw [hzero]
  norm_num

theorem covMatrix_gpW : covMatrix gpW gW = 0 := by
  ext i j
  simp [covMatrix, covariance, kvec, gpW, Matrix.one_mulVec,
    Matrix.dotProduct, Fin.sum_univ_one]

/-- Witness for C4 at the concrete one-point zero-noise engine `gpW`,
one-point grid `gW`, eigensystem `esW1` and noise vector `0`. -/
theorem C4_witness :
    (∀ a b : Unit, gpW.kern a b = gpW.kern b a) ∧
    Initialized gpW ∧
    gpW.sigma = 0 ∧
    gW 0 = gpW.inputs 0 ∧
    (∀ c, (covMatrix gpW gW).mulVec (eigcol esW1 c) = esW1.eigval c • eigcol esW1 c) ∧
    Monotone esW1.eigval ∧
    |sampleDraw esW1 (postMean gpW gW) (fun _ => 0) 0 - postMean gpW gW 0| < 1e-9 := by
  have hsym : ∀ a b : Unit, gpW.kern a b = gpW.kern b a := fun _ _ => rfl
  have hinit : Initialized gpW := by
    rw [Initialized]
    ext s u
    fin_cases s
    fin_cases u
    simp [gram, gpW, Matrix.mul_apply, Matrix.one_apply, Fin.sum_univ_one]
  have hsig : gpW.sigma = 0 := rfl
  have hloc : gW 0 = gpW.inputs 0 := rfl
  have hcov : covMatrix gpW gW = 0 := covMatrix_gpW
  have hEig : ∀ c, (covMatrix gpW gW).mulVec (eigcol esW1 c)
      = esW1.eigval c • eigcol esW1 c := by
    intro c
    rw [hcov]
    simp [Matrix.zero_mulVec, esW1]
  have hMono : Monotone esW1.eigval := monotone_const
  exact ⟨hsym, hinit, hsig, hloc, hEig, hMono,
    C4_draws_match_mean_at_training gpW gW 0 0 hsym hinit hsig hloc esW1 hEig hMono
      (fun _ => 0)⟩

/-- Claim C10: the draw expression actually implemented,
`rot * (z .* scl) + mean`, equals the definitional form `Q * z + mean`
with `Q = rot * diag(scl)`, for every noise vector `z` whose length is
the number of retained components. -/
theorem C10_draw_refines_Q_form {M : ℕ} (es : EigenSys M) (mean : Fin M → ℝ)
    (z : Fin (numComponentsToKeep es) → ℝ) :
    sampleDraw es mean z = fun i => (Q es).mulVec z i + mean i := by
  have hv : (fun j => z j * scl es j) = (Matrix.diagonal (scl es)).mulVec z := by
    funext j
    rw [Matrix.mulVec_diagonal]
    ring
  funext i
  simp only [sampleDraw, Q, hv, Matrix.mulVec_mulVec]

theorem numComponentsToKeep_lt_of_zero_row {M : ℕ}
    (K : Matrix (Fin M) (Fin M) ℝ) (es : EigenSys M)
    (hEig : ∀ c, K.mulVec (eigcol es c) = es.eigval c • eigcol es c)
    (hortho : ∀ c d, Matrix.dotProduct (eigcol es c) (eigcol es d)
      = if c = d then (1 : ℝ) else 0)
    (i0 : Fin M) (hrow : ∀ j, K i0 j = 0) :
    numComponentsToKeep es < M := by
  rcases lt_or_eq_of_le (numComponentsToKeep_le es) with h | h
  · exact h
  · exfalso
    have huniv : keepSet es = Finset.univ := by
      apply Finset.eq_univ_of_card
      simpa [numComponentsToKeep] using h
    have hall : ∀ c : Fin M, (1e-10 : ℝ) < es.eigval c := by
      intro c
      exact (mem_keepSet_iff es c).mp (huniv ▸ Finset.mem_univ c)
    have hvan : ∀ c, eigcol es c i0 = 0 := fun c =>
      eigcol_vanishes K es hEig i0 hrow c
        (ne_of_gt (lt_trans (by norm_num) (hall c)))
    have hVtV : es.eigvec.transpose * es.eigvec = 1 := by
      ext c d
      have h := hortho c d
      simp only [Matrix.dotProduct, eigcol] at h
      simp only [Matrix.mul_apply, Matrix.transpose_apply, Matrix.one_apply]
      exact h
    have hVVt : es.eigvec * es.eigvec.transpose = 1 :=
      Matrix.mul_eq_one_comm.mp hVtV
    have h1 : (es.eigvec * es.eigvec.transpose) i0 i0 = 1 := by
      rw [hVVt, Matrix.one_apply_eq]
    rw [Matrix.mul_apply] at h1
    have h0 : ∑ c, es.eigvec i0 c * es.eigvec.transpose c i0 = 0 := by
      apply Finset.sum_eq_zero
      intro c _
      have hc : es.eigvec i0 c = 0 := hvan c
      rw [Matrix.transpose_apply, hc]
      ring
    rw [h0] at h1
    norm_num at h1

/-- Claim C7 (code bug): the noise vector of line 151 has length
`number_of_samples` (= `M`), not `numComponentsToKeep`.  At the concrete
instance `esW1` (the eigendecomposition of the zero posterior-covariance
matrix of the zero-noise engine `gpW`, which has a zero row), the
truncation retains fewer components than `M`, so the coefficient-wise
product of line 151 is size-mismatched and no draw is produced for any
noise input. -/
theorem C7_noise_vector_wrong_length :
    numComponentsToKeep esW1 < 1 ∧
    ∀ mean z : Fin 1 → ℝ, sampleDrawCode esW1 mean z = none := by
  have hrow : ∀ j, covMatrix gpW gW 0 j = 0 := by
    intro j
    rw [covMatrix_gpW]
    rfl
  have hEig : ∀ c, (covMatrix gpW gW).mulVec (eigcol esW1 c)
      = esW1.eigval c • eigcol esW1 c := by
    intro c
    rw [covMatrix_gpW]
    simp [Matrix.zero_mulVec, esW1]
  have hortho : ∀ c d, Matrix.dotProduct (eigcol esW1 c) (eigcol esW1 d)
      = if c = d then (1 : ℝ) else 0 := by
    intro c d
    fin_cases c
    fin_cases d
    simp [eigcol, esW1, Matrix.dotProduct, Fin.sum_univ_one, Matrix.one_apply]
  have hlt := numComponentsToKeep_lt_of_zero_row (covMatrix gpW gW) esW1
    hEig hortho 0 hrow
  refine ⟨hlt, fun mean z => ?_⟩
  simp only [sampleDrawCode]
  exact dif_neg (by omega)

theorem sum_ortho_expansion {M : ℕ} (es : EigenSys M)
    (hortho : ∀ c d, Matrix.dotProduct (eigcol es c) (eigcol es d)
      = if c = d then (1 : ℝ) else 0)
    (T : Finset (Fin M)) (a b : Fin M → ℝ) :
    (∑ k, (∑ c ∈ T, a c * eigcol es c k) * (∑ d ∈ T, b d * eigcol es d k))
      = ∑ c ∈ T, a c * b c := by
  have ho : ∀ c d, (∑ k, eigcol es c k * eigcol es d k) = if c = d then (1 : ℝ) else 0 := by
    intro c d
    have h := hortho c d
    rwa [Matrix.dotProduct] at h
  calc
    (∑ k, (∑ c ∈ T, a c * eigcol es c k) * (∑ d ∈ T, b d * eigcol es d k))
        = ∑ k, ∑ c ∈ T, ∑ d ∈ T, a c * eigcol es c k * (b d * eigcol es d k) := by
          apply Finset.sum_congr rfl
          intro k _
          rw [Finset.sum_mul_sum]
    _ = ∑ c ∈ T, ∑ d ∈ T, ∑ k, a c * eigcol es c k * (b d * eigcol es d k) := by
          rw [Finset.sum_comm]
          apply Finset.sum_congr rfl
          intro c _
          rw [Finset.sum_comm]
    _ = ∑ c ∈ T, ∑ d ∈ T, a c * b d * ∑ k, eigcol es c k * eigcol es d k := by
          apply Finset.sum_congr rfl
          intro c _
          apply Finset.sum_congr rfl
          intro d _
          rw [Finset.mul_sum]
          apply Finset.sum_congr rfl
          intro k _
          ring
    _ = ∑ c ∈ T, a c * b c := by
          apply Finset.sum_congr rfl
          intro c hc
          calc
            (∑ d ∈ T, a c * b d * ∑ k, eigcol es c k * eigcol es d k)
                = ∑ d ∈ T, if c = d then a c * b d else 0 := by
                  apply Finset.sum_congr rfl
                  intro d _
                  rw [ho c d, mul_ite, mul_one, mul_zero]
            _ = a c * b c := by
                  rw [Finset.sum_ite_eq]
                  simp [hc]

theorem frobSq_sum_outer {M : ℕ} (es : EigenSys M)
    (hortho : ∀ c d, Matrix.dotProduct (eigcol es c) (eigcol es d)
      = if c = d then (1 : ℝ) else 0)
    (lam : Fin M → ℝ) (T : Finset (Fin M)) :
    frobSq (∑ c ∈ T, lam c • outerCol es c) = ∑ c ∈ T, lam c ^ 2 := by
  have hA : ∀ i k, (∑ c ∈ T, lam c • outerCol es c) i k
      = ∑ c ∈ T, lam c * eigcol es c i * eigcol es c k := by
    intro i k
    rw [Matrix.sum_apply]
    apply Finset.sum_congr rfl
    intro c _
    simp only [Matrix.smul_apply, outerCol, smul_eq_mul]
    ring
  have hstep : ∀ i, (∑ k, ((∑ c ∈ T, lam c • outerCol es c) i k) ^ 2)
      = ∑ c ∈ T, lam c * eigcol es c i * (lam c * eigcol es c i) := by
    intro i
    have he := sum_ortho_expansion es hortho T
      (fun c => lam c * eigcol es c i) (fun c => lam c * eigcol es c i)
    calc
      (∑ k, ((∑ c ∈ T, lam c • outerCol es c) i k) ^ 2)
          = ∑ k, (∑ c ∈ T, lam c * eigcol es c i * eigcol es c k)
              * (∑ d ∈ T, lam d * eigcol es d i * eigcol es d k) := by
            apply Finset.sum_congr rfl
            intro k _
            rw [hA, sq]
      _ = ∑ c ∈ T, lam c * eigcol es c i * (lam c * eigcol es c i) := he
  calc
    frobSq (∑ c ∈ T, lam c • outerCol es c)
        = ∑ i, ∑ c ∈ T, lam c * eigcol es c i * (lam c * eigcol es c i) := by
          unfold frobSq
          exact Finset.sum_congr rfl (fun i _ => hstep i)
    _ = ∑ c ∈ T, ∑ i, lam c * eigcol es c i * (lam c * eigcol es c i) :=
          Finset.sum_comm
    _ = ∑ c ∈ T, lam c ^ 2 := by
          apply Finset.sum_congr rfl
          intro c _
          have h1 : (∑ i, eigcol es c i * eigcol es c i) = 1 := by
            have h := hortho c c
            rw [Matrix.dotProduct] at h
            simpa using h
          calc
            (∑ i, lam c * eigcol es c i * (lam c * eigcol es c i))
                = lam c ^ 2 * ∑ i, eigcol es c i * eigcol es c i := by
                  rw [Finset.mul_sum]
                  apply Finset.sum_congr rfl
                  intro i _
                  ring
            _ = lam c ^ 2 := by rw [h1, mul_one]

theorem QQt_eq_keep_sum {M : ℕ} (es : EigenSys M) (hMono : Monotone es.eigval)
    (hpos : ∀ c, 0 ≤ es.eigval c) :
    Q es * (Q es).transpose
      = ∑ c ∈ keepSet es, es.eigval c • outerCol es c := by
  have h1 : Q es * (Q es).transpose
      = ∑ j : Fin (numComponentsToKeep es),
          es.eigval (revIdx es j) • outerCol es (revIdx es j) := by
    ext i k
    rw [Matrix.mul_apply, Matrix.sum_apply]
    apply Finset.sum_congr rfl
    intro j _
    have hq : ∀ x, Q es x j = rot es x j * scl es j := by
      intro x
      simp [Q, Matrix.mul_diagonal]
    rw [Matrix.transpose_apply, hq, hq]
    have hs : scl es j * scl es j = es.eigval (revIdx es j) :=
      Real.mul_self_sqrt (hpos _)
    simp only [Matrix.smul_apply, outerCol, eigcol, smul_eq_mul]
    calc
      rot es i j * scl es j * (rot es k j * scl es j)
          = scl es j * scl es j * (rot es i j * rot es k j) := by ring
      _ = es.eigval (revIdx es j)
            * (es.eigvec i (revIdx es j) * es.eigvec k (revIdx es j)) := by
          rw [hs]
          rfl
  rw [h1, ← image_revIdx_eq_keepSet es hMono, Finset.sum_image]
  intro a _ b _ hab
  exact revIdx_injective es hab

theorem frobSq_neg {M : ℕ} (A : Matrix (Fin M) (Fin M) ℝ) :
    frobSq (-A) = frobSq A := by
  unfold frobSq
  apply Finset.sum_congr rfl
  intro i _
  apply Finset.sum_congr rfl
  intro k _
  rw [Matrix.neg_apply, neg_sq]

/-- Claim C6: for an exact orthonormal eigendecomposition of a positive
semidefinite covariance matrix `K` over a grid of at most 50 points
(the test uses exactly 50), the truncated square root
`Q = eigenvectors_kept * diag(sqrt(eigenvalues_kept))` satisfies
`frobNorm (Q*Qᵀ - K) < 1e-8`: the discarded eigenvalues lie in
`[0, 1e-10]`, so the residual is at most `sqrt(M) * 1e-10`. -/
theorem C6_truncated_sqrt_accuracy {M : ℕ} (hM : M ≤ 50)
    (K : Matrix (Fin M) (Fin M) ℝ) (es : EigenSys M)
    (hspec : K = ∑ c, es.eigval c • outerCol es c)
    (hortho : ∀ c d, Matrix.dotProduct (eigcol es c) (eigcol es d)
      = if c = d then (1 : ℝ) else 0)
    (hpos : ∀ c, 0 ≤ es.eigval c)
    (hMono : Monotone es.eigval) :
    frobNorm (Q es * (Q es).transpose - K) < 1e-8 := by
  have hdiff : Q es * (Q es).transpose - K
      = -∑ c ∈ Finset.univ \ keepSet es, es.eigval c • outerCol es c := by
    rw [QQt_eq_keep_sum es hMono hpos, hspec,
      ← Finset.sum_sdiff (Finset.subset_univ (keepSet es))]
    abel
  have hfs : frobSq (Q es * (Q es).transpose - K)
      = ∑ c ∈ Finset.univ \ keepSet es, es.eigval c ^ 2 := by
    rw [hdiff, frobSq_neg, frobSq_sum_outer es hortho es.eigval _]
  have hterm : ∀ c ∈ Finset.univ \ keepSet es, es.eigval c ^ 2 ≤ (1e-10 : ℝ) ^ 2 := by
    intro c hc
    have hnk : c ∉ keepSet es := (Finset.mem_sdiff.mp hc).2
    have hle : es.eigval c ≤ 1e-10 := by
      by_contra hgt
      exact hnk ((mem_keepSet_iff es c).mpr (lt_of_not_le hgt))
    exact pow_le_pow_left₀ (hpos c) hle 2
  have hcard : ((Finset.univ \ keepSet es).card : ℝ) ≤ (M : ℝ) := by
    exact_mod_cast le_trans (Finset.card_le_univ _) (by simp)
  have hbound : frobSq (Q es * (Q es).transpose - K) < (1e-8 : ℝ) ^ 2 := by
    rw [hfs]
    have hMr : (M : ℝ) ≤ 50 := by exact_mod_cast hM
    calc
      (∑ c ∈ Finset.univ \ keepSet es, es.eigval c ^ 2)
          ≤ ∑ _c ∈ Finset.univ \ keepSet es, (1e-10 : ℝ) ^ 2 :=
            Finset.sum_le_sum hterm
      _ = ((Finset.univ \ keepSet es).card : ℝ) * (1e-10 : ℝ) ^ 2 := by
            rw [Finset.sum_const, nsmul_eq_mul]
      _ ≤ (M : ℝ) * (1e-10 : ℝ) ^ 2 := by
            apply mul_le_mul_of_nonneg_right hcard
            positivity
      _ ≤ (50 : ℝ) * (1e-10 : ℝ) ^ 2 := by
            apply mul_le_mul_of_nonneg_right hMr
            positivity
      _ < (1e-8 : ℝ) ^ 2 := by norm_num
  rw [frobNorm, Real.sqrt_lt' (by norm_num)]
  exact hbound

theorem esW1_ortho : ∀ c d, Matrix.dotProduct (eigcol esW1 c) (eigcol esW1 d)
    = if c = d then (1 : ℝ) else 0 := by
  intro c d
  fin_cases c
  fin_cases d
  simp [eigcol, esW1, Matrix.dotProduct, Fin.sum_univ_one, Matrix.one_apply]

/-- Witness for C6 at the eigendecomposition `esW1` of the `1×1` zero
matrix. -/
theorem C6_witness :
    (1 ≤ 50) ∧
    ((0 : Matrix (Fin 1) (Fin 1) ℝ) = ∑ c, esW1.eigval c • outerCol esW1 c) ∧
    (∀ c d, Matrix.dotProduct (eigcol esW1 c) (eigcol esW1 d)
      = if c = d then (1 : ℝ) else 0) ∧
    (∀ c, 0 ≤ esW1.eigval c) ∧
    Monotone esW1.eigval ∧
    frobNorm (Q esW1 * (Q esW1).transpose - 0) < 1e-8 := by
  have hspec : (0 : Matrix (Fin 1) (Fin 1) ℝ) = ∑ c, esW1.eigval c • outerCol esW1 c := by
    simp [esW1]
  have hpos : ∀ c, 0 ≤ esW1.eigval c := fun _ => le_refl 0
  exact ⟨by norm_num, hspec, esW1_ortho, hpos, monotone_const,
    C6_truncated_sqrt_accuracy (by norm_num) 0 esW1 hspec esW1_ortho hpos monotone_const⟩

theorem fillIter_K_write {M : ℕ} (pm : Fin M → ℝ) (cov : Fin M → Fin M → ℝ)
    (a b : Fin M) (hab : a ≤ b) (st : FillState M) :
    (fillIter pm cov a st).K a b = cov a b ∧
    (fillIter pm cov a st).K b a = cov a b := by
  constructor
  · simp [fillIter, hab]
  · by_cases h : b = a
    · subst h
      simp [fillIter]
    · simp [fillIter, hab, h]

theorem fillIter_K_skip {M : ℕ} (pm : Fin M → ℝ) (cov : Fin M → Fin M → ℝ)
    (i a b : Fin M) (hab : a ≤ b) (hia : i ≠ a) (st : FillState M) :
    (fillIter pm cov i st).K a b = st.K a b ∧
    (fillIter pm cov i st).K b a = st.K b a := by
  have h1 : ¬ (a = i ∧ i ≤ b) := fun h => hia h.1.symm
  have h2 : ¬ (b = i ∧ i ≤ a) := by
    rintro ⟨rfl, hle⟩
    exact hia (le_antisymm hab hle).symm
  constructor <;> simp [fillIter, h1, h2]

theorem fillIter_mean_skip {M : ℕ} (pm : Fin M → ℝ) (cov : Fin M → Fin M → ℝ)
    (i a : Fin M) (hia : i ≠ a) (st : FillState M) :
    (fillIter pm cov i st).mean a = st.mean a := by
  simp [fillIter, Function.update_apply, hia.symm]

theorem fillRun_K_not_mem {M : ℕ} (pm : Fin M → ℝ) (cov : Fin M → Fin M → ℝ)
    (a b : Fin M) (hab : a ≤ b) :
    ∀ (o : List (Fin M)) (st : FillState M), a ∉ o →
      (fillRun pm cov o st).K a b = st.K a b ∧
      (fillRun pm cov o st).K b a = st.K b a := by
  intro o
  induction o with
  | nil => exact fun st _ => ⟨rfl, rfl⟩
  | cons i rest ih =>
      intro st hmem
      have hia : i ≠ a := by
        intro h
        exact hmem (by rw [h]; exact List.mem_cons_self a rest)
      have hskip := fillIter_K_skip pm cov i a b hab hia st
      have hrest := ih (fillIter pm cov i st)
        (fun h => hmem (List.mem_cons_of_mem i h))
      exact ⟨hrest.1.trans hskip.1, hrest.2.trans hskip.2⟩

theorem fillRun_K_mem {M : ℕ} (pm : Fin M → ℝ) (cov : Fin M → Fin M → ℝ)
    (a b : Fin M) (hab : a ≤ b) :
    ∀ (o : List (Fin M)) (st : FillState M), a ∈ o →
      (fillRun pm cov o st).K a b = cov a b ∧
      (fillRun pm cov o st).K b a = cov a b := by
  intro o
  induction o with
  | nil =>
      intro st h
      cases h
  | cons i rest ih =>
      intro st hmem
      by_cases hrest : a ∈ rest
      · exact ih (fillIter pm cov i st) hrest
      · have hia : i = a := by
          rcases List.mem_cons.mp hmem with h | h
          · exact h.symm
          · exact absurd h hrest
        subst hia
        have hnm := fillRun_K_not_mem pm cov i b hab rest
          (fillIter pm cov i st) hrest
        have hw := fillIter_K_write pm cov i b hab st
        exact ⟨hnm.1.trans hw.1, hnm.2.trans hw.2⟩

theorem fillRun_mean_not_mem {M : ℕ} (pm : Fin M → ℝ) (cov : Fin M → Fin M → ℝ)
    (a : Fin M) :
    ∀ (o : List (Fin M)) (st : FillState M), a ∉ o →
      (fillRun pm cov o st).mean a = st.mean a := by
  intro o
  induction o with
  | nil => exact fun st _ => rfl
  | cons i rest ih =>
      intro st hmem
      have hia : i ≠ a := by
        intro h
        exact hmem (by rw [h]; exact List.mem_cons_self a rest)
      exact (ih (fillIter pm cov i st)
        (fun h => hmem (List.mem_cons_of_mem i h))).trans
        (fillIter_mean_skip pm cov i a hia st)

theorem fillRun_mean_mem {M : ℕ} (pm : Fin M → ℝ) (cov : Fin M → Fin M → ℝ)
    (a : Fin M) :
    ∀ (o : List (Fin M)) (st : FillState M), a ∈ o →
      (fillRun pm cov o st).mean a = pm a := by
  intro o
  induction o with
  | nil =>
      intro st h
      cases h
  | cons i rest ih =>
      intro st hmem
      by_cases hrest : a ∈ rest
      · exact ih (fillIter pm cov i st) hrest
      · have hia : i = a := by
          rcases List.mem_cons.mp hmem with h | h
          · exact h.symm
          · exact absurd h hrest
        subst hia
        have hnm := fillRun_mean_not_mem pm cov i rest (fillIter pm cov i st) hrest
        show (fillRun pm cov rest (fillIter pm cov i st)).mean i = pm i
        rw [hnm]
        simp [fillIter]

/-- Claim C8: every cell `(a, b)` of the fill receives its value from the
single iteration `min a b` (which writes the cell and its mirror), so any
run whose iteration order covers every index yields `K(a,b) =
cov(min a b, max a b)`; hence the matrix is symmetric and two runs with
different iteration orders (and even different initial states) produce
the same matrix and mean vector. -/
theorem C8_fill_symmetric_and_order_independent {M : ℕ}
    (pm : Fin M → ℝ) (cov : Fin M → Fin M → ℝ)
    (o1 o2 : List (Fin M)) (h1 : ∀ i, i ∈ o1) (h2 : ∀ i, i ∈ o2)
    (st1 st2 : FillState M) :
    (∀ a b, (fillRun pm cov o1 st1).K a b = cov (min a b) (max a b)) ∧
    (∀ a b, (fillRun pm cov o1 st1).K a b = (fillRun pm cov o1 st1).K b a) ∧
    (∀ i, (fillRun pm cov o1 st1).mean i = pm i) ∧
    (fillRun pm cov o1 st1).K = (fillRun pm cov o2 st2).K ∧
    (fillRun pm cov o1 st1).mean = (fillRun pm cov o2 st2).mean := by
  have key : ∀ (o : List (Fin M)) (st : FillState M), (∀ i, i ∈ o) →
      ∀ a b, (fillRun pm cov o st).K a b = cov (min a b) (max a b) := by
    intro o st ho a b
    rcases le_total a b with hab | hab
    · have h := (fillRun_K_mem pm cov a b hab o st (ho a)).1
      rwa [min_eq_left hab, max_eq_right hab]
    · have h := (fillRun_K_mem pm cov b a hab o st (ho b)).2
      rwa [min_eq_right hab, max_eq_left hab]
  refine ⟨key o1 st1 h1, ?_, fun i => fillRun_mean_mem pm cov i o1 st1 (h1 i), ?_, ?_⟩
  · intro a b
    rw [key o1 st1 h1 a b, key o1 st1 h1 b a, min_comm a b, max_comm a b]
  · funext a b
    rw [key o1 st1 h1 a b, key o2 st2 h2 a b]
  · funext i
    rw [fillRun_mean_mem pm cov i o1 st1 (h1 i),
      fillRun_mean_mem pm cov i o2 st2 (h2 i)]

/-- Witness for C8 at `M = 2` with the two opposite iteration orders. -/
theorem C8_witness :
    (∀ i : Fin 2, i ∈ o1W) ∧ (∀ i : Fin 2, i ∈ o2W) ∧
    ((∀ a b, (fillRun pmW covW o1W stW).K a b = covW (min a b) (max a b)) ∧
      (∀ a b, (fillRun pmW covW o1W stW).K a b = (fillRun pmW covW o1W stW).K b a) ∧
      (∀ i, (fillRun pmW covW o1W stW).mean i = pmW i) ∧
      (fillRun pmW covW o1W stW).K = (fillRun pmW covW o2W stW).K ∧
      (fillRun pmW covW o1W stW).mean = (fillRun pmW covW o2W stW).mean) := by
  have h1 : ∀ i : Fin 2, i ∈ o1W := by decide
  have h2 : ∀ i : Fin 2, i ∈ o2W := by decide
  exact ⟨h1, h2,
    C8_fill_symmetric_and_order_independent pmW covW o1W o2W h1 h2 stW stW⟩

end GPR
